import Mathlib

/-!
Verification development for the sszb SSZ codec.

The development embeds the codec core of the repository:
  * `src/sszb_lib/src/encode/encode_impls.rs` (the `SszbEncode` impls),
  * `src/sszb_lib/src/decode/decode_impls.rs` (the `SszDecode` impls and
    `ssz_decode_variable_length_items`),
  * `src/sszb_derive/src/lib.rs` (the container codec emitted by
    `derive_encode` / `derive_decode`).

The SSZ type universe is a deep embedding `Ty` covering the shapes the
library implements: little-endian unsigned integers (`u8`..`u128`), booleans,
fixed byte blobs (`FixedBytes<N>` / `Address` / hash types), bounded lists of
elements (`VariableList<T, N>`), fixed-capacity vectors (`FixedVector<T, N>`)
and derived containers (structs).  Values are a matching deep embedding `Val`;
bytes are `Nat`s below 256.

Rust panics (out-of-range slice indexing, `copy_to_slice` on a short buffer,
`usize` subtraction overflow, `copy_to_bytes`/`split_off` beyond the buffer)
are modelled by a dedicated outcome `DErr.abort`, kept distinct from the
`DecodeError` results the library returns.
-/

namespace Sszb

def BYTES_PER_LENGTH_OFFSET : Nat := 4

/-- Little-endian byte encoding of `v` on `w` bytes, as performed by
`put_u16_le` … / `offset.to_le_bytes()[0..BYTES_PER_LENGTH_OFFSET]`:
byte `i` is `v / 256^i % 256`, so a wider value is silently reduced
modulo `256^w` exactly like taking the low bytes in Rust. -/
def leBytes : Nat → Nat → List Nat
  | 0, _ => []
  | w + 1, v => v % 256 :: leBytes w (v / 256)

/-- Little-endian read of a byte list, as performed by `get_u32_le` and
friends on the buffered bytes. -/
def fromLEBytes : List Nat → Nat
  | [] => 0
  | b :: bs => b + 256 * fromLEBytes bs

/-- SSZ type universe: the shapes implemented by the library.

  * `uint w`        — `uN` with `w` bytes (`u8`, `u16`, `u32`, `u64`, `u128`);
  * `boolean`       — `bool`;
  * `fixedBytes n`  — `FixedBytes<N>` (also `Address` for `n = 20`, `H256`
                      for `n = 32`, `Bloom` for `n = 256`, …);
  * `list t n`      — `VariableList<T, N>`;
  * `vector t n`    — `FixedVector<T, N>`;
  * `container fs`  — a `#[derive(SszbEncode, SszbDecode)]` struct with the
                      given ordered field types (no skip attributes). -/
inductive Ty where
  | uint (w : Nat)
  | boolean
  | fixedBytes (n : Nat)
  | list (t : Ty) (n : Nat)
  | vector (t : Ty) (n : Nat)
  | container (fields : List Ty)

/-- Values of the universe.  Sequence and container payloads are lists of
values; a byte blob is its list of bytes. -/
inductive Val where
  | uint (w v : Nat)
  | boolean (b : Bool)
  | fixedBytes (bs : List Nat)
  | list (es : List Val)
  | vector (es : List Val)
  | container (fs : List Val)

mutual

/-- The `is_ssz_static` capability of each impl: leaves are static, lists are
never static, vectors and containers are static when their contents are. -/
def is_ssz_static : Ty → Bool
  | .uint _ => true
  | .boolean => true
  | .fixedBytes _ => true
  | .list _ _ => false
  | .vector t _ => is_ssz_static t
  | .container fs => all_ssz_static fs

/-- The conjunction in the derived `is_ssz_static`: the fold of `&&` over the
fields (`derive` emits `f1 && f2 && … && true`). -/
def all_ssz_static : List Ty → Bool
  | [] => true
  | t :: ts => is_ssz_static t && all_ssz_static ts

end

mutual

/-- The `ssz_fixed_len` of each impl: the exact size of a static type and one
offset width for a variable one. -/
def ssz_fixed_len : Ty → Nat
  | .uint w => w
  | .boolean => 1
  | .fixedBytes n => n
  | .list _ _ => BYTES_PER_LENGTH_OFFSET
  | .vector t n =>
      if is_ssz_static t then ssz_fixed_len t * n else BYTES_PER_LENGTH_OFFSET
  | .container fs =>
      if all_ssz_static fs then ssz_fixed_len_sum fs else BYTES_PER_LENGTH_OFFSET

/-- The checked summation of the fields' `ssz_fixed_len` in the derived code
(`len.checked_add(…)`; overflow cannot occur over `Nat`). -/
def ssz_fixed_len_sum : List Ty → Nat
  | [] => 0
  | t :: ts => ssz_fixed_len t + ssz_fixed_len_sum ts

end

mutual

/-- The encode-side `ssz_max_len` of each impl
(`src/sszb_lib/src/encode/encode_impls.rs`): leaves report their size, both
`VariableList` and `FixedVector` report `T::ssz_max_len() * N`, and the
derived container sums its fields. -/
def ssz_max_len : Ty → Nat
  | .uint w => w
  | .boolean => 1
  | .fixedBytes n => n
  | .list t n => ssz_max_len t * n
  | .vector t n => ssz_max_len t * n
  | .container fs => ssz_max_len_sum fs

/-- Field summation in the derived `ssz_max_len`. -/
def ssz_max_len_sum : List Ty → Nat
  | [] => 0
  | t :: ts => ssz_max_len t + ssz_max_len_sum ts

end

mutual

/-- The value-level `sszb_bytes_len` of each impl.  Sequences of static
elements report `T::ssz_fixed_len() * len` (`FixedVector` uses the type-level
`N`), sequences of variable elements add one offset width per element, and
the derived container sums per field (a static field contributes its fixed
length, a variable one an offset width plus its own `sszb_bytes_len`).
An ill-typed pairing (never produced by the Rust types) yields 0. -/
def sszb_bytes_len : Ty → Val → Nat
  | .uint w, .uint _ _ => w
  | .boolean, .boolean _ => 1
  | .fixedBytes n, .fixedBytes _ => n
  | .list t _, .list es =>
      if is_ssz_static t then ssz_fixed_len t * es.length
      else sszb_bytes_len_sum t es + BYTES_PER_LENGTH_OFFSET * es.length
  | .vector t n, .vector es =>
      if is_ssz_static t then ssz_fixed_len t * n
      else sszb_bytes_len_sum t es + BYTES_PER_LENGTH_OFFSET * n
  | .container fs, .container vs =>
      if all_ssz_static fs then ssz_fixed_len_sum fs
      else sszb_bytes_len_fields fs vs
  | _, _ => 0

/-- Summation of the elements' `sszb_bytes_len` over a sequence payload. -/
def sszb_bytes_len_sum : Ty → List Val → Nat
  | _, [] => 0
  | t, e :: es => sszb_bytes_len t e + sszb_bytes_len_sum t es

/-- Per-field summation in the derived `sszb_bytes_len`. -/
def sszb_bytes_len_fields : List Ty → List Val → Nat
  | g :: gs, v :: vs =>
      (if is_ssz_static g then ssz_fixed_len g
       else BYTES_PER_LENGTH_OFFSET + sszb_bytes_len g v)
        + sszb_bytes_len_fields gs vs
  | _, _ => 0

end

/-- The offset table written ahead of a variable-element sequence: each
element's `ssz_write_fixed` appends the running offset (low 4 bytes,
little endian) and advances it by the element's `sszb_bytes_len`. -/
def ssz_write_offsets (t : Ty) : Nat → List Val → List Nat
  | _, [] => []
  | off, e :: es =>
      leBytes BYTES_PER_LENGTH_OFFSET off ++
        ssz_write_offsets t (off + sszb_bytes_len t e) es

mutual

/-- The `ssz_write` of each impl, producing the encoded bytes.

  * integers and offsets are little endian; a boolean is one byte 0 or 1;
  * a sequence of static elements concatenates the elements' writes;
  * a sequence of variable elements writes the offset table (running offset
    initialised to `len * BYTES_PER_LENGTH_OFFSET`) and then every element;
  * a derived container initialises the running offset to the sum of all
    fields' `ssz_fixed_len`, writes every field's `ssz_write_fixed`
    contribution (the value itself when static, the offset otherwise) and
    then every variable field's `ssz_write_variable` tail. -/
def ssz_write : Ty → Val → List Nat
  | .uint w, .uint _ v => leBytes w v
  | .boolean, .boolean b => [if b then 1 else 0]
  | .fixedBytes _, .fixedBytes bs => bs
  | .list t _, .list es =>
      if is_ssz_static t then ssz_write_elems t es
      else
        ssz_write_offsets t (es.length * BYTES_PER_LENGTH_OFFSET) es ++
          ssz_write_elems t es
  | .vector t _, .vector es =>
      if is_ssz_static t then ssz_write_elems t es
      else
        ssz_write_offsets t (es.length * BYTES_PER_LENGTH_OFFSET) es ++
          ssz_write_elems t es
  | .container fs, .container vs =>
      ssz_write_fields_fixed fs vs (ssz_fixed_len_sum fs) ++
        ssz_write_fields_var fs vs
  | _, _ => []

/-- Concatenation of the elements' `ssz_write` over a sequence payload. -/
def ssz_write_elems : Ty → List Val → List Nat
  | _, [] => []
  | t, e :: es => ssz_write t e ++ ssz_write_elems t es

/-- The fixed-region pass of the derived `ssz_write`: each field's
`ssz_write_fixed`, threading the shared running offset in field order. -/
def ssz_write_fields_fixed : List Ty → List Val → Nat → List Nat
  | g :: gs, v :: vs, off =>
      if is_ssz_static g then ssz_write g v ++ ssz_write_fields_fixed gs vs off
      else
        leBytes BYTES_PER_LENGTH_OFFSET off ++
          ssz_write_fields_fixed gs vs (off + sszb_bytes_len g v)
  | _, _, _ => []

/-- The variable-region pass of the derived `ssz_write`: each field's
`ssz_write_variable` (nothing for a static field, its `ssz_write`
otherwise), in field order. -/
def ssz_write_fields_var : List Ty → List Val → List Nat
  | g :: gs, v :: vs =>
      (if is_ssz_static g then [] else ssz_write g v) ++
        ssz_write_fields_var gs vs
  | _, _ => []

end

mutual

/-- Well-typedness of a value at a type, including the capacity bounds the
Rust types enforce by construction: an integer fits its width, blob bytes
are bytes and match the blob width, a list holds at most `n` elements, a
vector exactly `n`, and container fields match pointwise. -/
def wf : Ty → Val → Bool
  | .uint w, .uint w' v => w' == w && decide (v < 2 ^ (8 * w))
  | .boolean, .boolean _ => true
  | .fixedBytes n, .fixedBytes bs =>
      bs.length == n && bs.all (fun b => decide (b < 256))
  | .list t n, .list es => decide (es.length ≤ n) && wf_elems t es
  | .vector t n, .vector es => es.length == n && wf_elems t es
  | .container fs, .container vs => wf_fields fs vs
  | _, _ => false

/-- Pointwise well-typedness of sequence elements. -/
def wf_elems : Ty → List Val → Bool
  | _, [] => true
  | t, e :: es => wf t e && wf_elems t es

/-- Pointwise well-typedness of container fields. -/
def wf_fields : List Ty → List Val → Bool
  | [], [] => true
  | g :: gs, v :: vs => wf g v && wf_fields gs vs
  | _, _ => false

end

/-- Decode error kinds of the library (`DecodeError` in the crate root).
The formatted message payloads of `BytesInvalid` are not modelled; the
numeric payloads that identify the failure are kept. -/
inductive DecodeError where
  | invalidByteLength (len expected : Nat)
  | bytesInvalid
  | zeroLengthItem
  | invalidListFixedBytesLen (offset : Nat)
  | offsetOutOfBounds (offset : Nat)
  | offsetsAreDecreasing (offset : Nat)

/-- Outcome of running decoder code: a returned `DecodeError`, or a Rust
panic (`abort`) from slice indexing, `copy_to_slice`/`copy_to_bytes`/
`split_off` beyond the buffer, or `usize` subtraction overflow. -/
inductive DErr where
  | decodeErr (e : DecodeError)
  | abort

/-- Modelled from the spec: `read_offset_from_buf` lives in the crate root,
which is not under `src/`.  Per §4.3 it reads a 4-byte little-endian offset
and fails when fewer than `BYTES_PER_LENGTH_OFFSET` bytes remain; reading
consumes the bytes from the buffer. -/
def read_offset_from_buf (bytes : List Nat) : Except DErr (Nat × List Nat) :=
  if bytes.length < BYTES_PER_LENGTH_OFFSET then
    .error (.decodeErr (.invalidByteLength bytes.length BYTES_PER_LENGTH_OFFSET))
  else
    .ok (fromLEBytes (bytes.take BYTES_PER_LENGTH_OFFSET),
      bytes.drop BYTES_PER_LENGTH_OFFSET)

/-- Modelled from the spec: `read_offset_from_slice` lives in the crate root,
which is not under `src/`.  Same as `read_offset_from_buf` but without
consuming the input. -/
def read_offset_from_slice (bytes : List Nat) : Except DErr Nat :=
  if bytes.length < BYTES_PER_LENGTH_OFFSET then
    .error (.decodeErr (.invalidByteLength bytes.length BYTES_PER_LENGTH_OFFSET))
  else .ok (fromLEBytes (bytes.take BYTES_PER_LENGTH_OFFSET))

/-- Modelled from the spec: `sanitize_offset` lives in the crate root, which
is not under `src/`.  Per §4.3 it rejects an offset exceeding the region
length and an offset smaller than a known previous offset.  The spec's
third rejection — a first offset below one offset width — is realised by
the callers' explicit check in `src/sszb_lib/src/decode/decode_impls.rs`
(lines 640-643), which §7 assigns to `InvalidListFixedBytesLen`, so it is
not duplicated here. -/
def sanitize_offset (offset : Nat) (prev : Option Nat) (regionLen : Nat)
    (_first : Option Nat) : Except DErr Nat :=
  if regionLen < offset then .error (.decodeErr (.offsetOutOfBounds offset))
  else
    match prev with
    | some p =>
        if offset < p then .error (.decodeErr (.offsetsAreDecreasing offset))
        else .ok offset
    | none => .ok offset

/-- The buffer split performed by `from_ssz_bytes` before delegating to
`ssz_read`.  For a derived container this is the generated
`from_ssz_bytes` of `src/sszb_derive/src/lib.rs` (lines 343-359): split at
the sum of the fields' `ssz_fixed_len`, failing when fewer bytes are
given.  For the other types it is modelled from the spec (the trait's
default method is in the crate root, not under `src/`): per §4.6 a static
type splits at its `ssz_fixed_len`, failing on fewer bytes; for a variable
sequence the whole input is the variable region, as §4.4 states ("lists
are always stored in the dynamic section") and the §8 empty-list scenario
("decodes from zero variable bytes") requires. -/
def from_ssz_bytes_split (t : Ty) (bytes : List Nat) :
    Except DErr (List Nat × List Nat) :=
  match t with
  | .container fs =>
      let len := ssz_fixed_len_sum fs
      if bytes.length < len then
        .error (.decodeErr (.invalidByteLength bytes.length len))
      else .ok (bytes.take len, bytes.drop len)
  | t =>
      if is_ssz_static t then
        if bytes.length < ssz_fixed_len t then
          .error (.decodeErr (.invalidByteLength bytes.length (ssz_fixed_len t)))
        else .ok (bytes.take (ssz_fixed_len t), bytes.drop (ssz_fixed_len t))
      else .ok ([], bytes)

/-- Decoding of `count` consecutive chunks of `k` bytes each, as the
static-element branches do with `bytes.chunks(T::ssz_fixed_len())` over a
slice of exactly `count * k` bytes, mapping `T::from_ssz_bytes` over the
chunks with fail-fast error propagation (`first_err_or_else`). -/
def decode_chunks (dec : List Nat → Except DErr Val) (k : Nat) :
    Nat → List Nat → Except DErr (List Val)
  | 0, _ => .ok []
  | c + 1, bytes => do
      let v ← dec (bytes.take k)
      let vs ← decode_chunks dec k c (bytes.drop k)
      .ok (v :: vs)

/-- The offset table parsed by `ssz_decode_variable_length_items`:
`chunks_exact(BYTES_PER_LENGTH_OFFSET)` mapped through
`read_offset_from_slice` (each chunk has exactly 4 bytes, so the reads
cannot fail), for `count` offsets. -/
def offsets_of : Nat → List Nat → List Nat
  | 0, _ => []
  | c + 1, bytes =>
      fromLEBytes (bytes.take BYTES_PER_LENGTH_OFFSET) ::
        offsets_of c (bytes.drop BYTES_PER_LENGTH_OFFSET)

/-- The pairwise sliding scan of `ssz_decode_variable_length_items`
(`src/sszb_lib/src/decode/decode_impls.rs` lines 792-830): the offsets are
chained with a synthetic trailing end equal to the total remaining length,
item `i` spans `offset[i]` to `offset[i+1]`, its bytes are taken with
`copy_to_bytes(end - start)` from the front of the payload buffer, and the
first failing item aborts the scan.  `end - start` is a `usize`
subtraction: a decreasing pair panics (`abort`), as does `copy_to_bytes`
past the end of the payload. -/
def decode_var_items (dec : List Nat → Except DErr Val) :
    List Nat → Nat → List Nat → Except DErr (List Val)
  | [], _, _ => .ok []
  | o :: rest, endPos, items =>
      let nxt := match rest with
        | [] => endPos
        | o2 :: _ => o2
      if nxt < o then .error .abort
      else
        let len := nxt - o
        if items.length < len then .error .abort
        else do
          let v ← dec (items.take len)
          let vs ← decode_var_items dec rest endPos (items.drop len)
          .ok (v :: vs)

/-- The scan for the next variable field's offset in the derived variable
container decoder (`src/sszb_derive/src/lib.rs` lines 244-260): walk every
field, adding `ssz_fixed_len` for a static one; at the first variable field
whose fixed-region position `start` has reached the cursor, read its offset
from the remaining fixed bytes at index `start - cursor` (Rust slice
indexing panics when the 4 bytes are out of range); any later variable
field adds one offset width. -/
def scan_end : List Ty → Nat → List Nat → Nat → Option Nat →
    Except DErr (Option Nat)
  | [], _, _, _, e => .ok e
  | g :: gs, cursor, fixedRest, start, e =>
      if is_ssz_static g then
        scan_end gs cursor fixedRest (start + ssz_fixed_len g) e
      else if start ≥ cursor ∧ e = none then
        let index := start - cursor
        if fixedRest.length < index + BYTES_PER_LENGTH_OFFSET then .error .abort
        else do
          let o ← read_offset_from_slice
            ((fixedRest.drop index).take BYTES_PER_LENGTH_OFFSET)
          scan_end gs cursor fixedRest start (some o)
      else scan_end gs cursor fixedRest (start + BYTES_PER_LENGTH_OFFSET) e

mutual

/-- The `ssz_read` of each impl, over the fixed-region and variable-region
buffers; a success returns the value and both buffers' unconsumed rests.

  * an integer or boolean checks the remaining fixed bytes first and
    returns `InvalidByteLength` when short; out-of-range boolean bytes are
    `BytesInvalid`;
  * a fixed byte blob (`FixedBytes` / `Address` / `Bloom` / hashes) runs
    `copy_to_slice` before its length check, so a short buffer panics;
  * `VariableList::ssz_read` decodes everything from the variable region:
    an empty region is the empty list; static elements infer the count by
    division (`ZeroLengthItem` on a zero divisor, capacity check, chunked
    element decode); variable elements read and sanitize the first offset
    (`Bytes::slice(0..4)` panics below 4 bytes), require offset-width
    alignment and at least one offset width (`InvalidListFixedBytesLen`),
    infer `numItems = firstOffset / BYTES_PER_LENGTH_OFFSET`, enforce the
    capacity bound, split the region into table and payload and run the
    pairwise scan;
  * `FixedVector::ssz_read` decodes an empty input as `Vec::new()` (which
    `FixedVector::new` rejects unless `N = 0`), static elements from the
    fixed region (exact-size check, `chunks` panics on a zero-size
    element), variable elements from the variable region (`split_off`
    panics when `N` offsets do not fit);
  * a derived container reads a static layout directly field by field, and
    a variable layout via the generated cursor walk. -/
def ssz_read : Ty → List Nat → List Nat → Except DErr (Val × List Nat × List Nat)
  | .uint w, fb, vb =>
      if fb.length < w then
        .error (.decodeErr (.invalidByteLength fb.length w))
      else .ok (.uint w (fromLEBytes (fb.take w)), fb.drop w, vb)
  | .boolean, fb, vb =>
      match fb with
      | [] => .error (.decodeErr (.invalidByteLength 0 1))
      | b :: rest =>
          if b = 0 then .ok (.boolean false, rest, vb)
          else if b = 1 then .ok (.boolean true, rest, vb)
          else .error (.decodeErr .bytesInvalid)
  | .fixedBytes n, fb, vb =>
      if fb.length < n then .error .abort
      else .ok (.fixedBytes (fb.take n), fb.drop n, vb)
  | .list t n, fb, vb =>
      let dec := fun chunk => do
        let (f, v) ← from_ssz_bytes_split t chunk
        let (val, _, _) ← ssz_read t f v
        Except.ok val
      if vb.isEmpty then .ok (.list [], fb, vb)
      else if is_ssz_static t then
        let k := ssz_fixed_len t
        if k = 0 then .error (.decodeErr .zeroLengthItem)
        else
          let numItems := vb.length / k
          if n < numItems then .error (.decodeErr .bytesInvalid)
          else do
            let vs ← decode_chunks dec k numItems (vb.take (numItems * k))
            if n < vs.length then .error (.decodeErr .bytesInvalid)
            else .ok (.list vs, fb, vb.drop (numItems * k))
      else
        if vb.length < BYTES_PER_LENGTH_OFFSET then .error .abort
        else do
          let firstOffset ← read_offset_from_slice
            (vb.take BYTES_PER_LENGTH_OFFSET)
          let _ ← sanitize_offset firstOffset none
            (vb.length - BYTES_PER_LENGTH_OFFSET) (some firstOffset)
          if firstOffset % BYTES_PER_LENGTH_OFFSET ≠ 0 ∨
              firstOffset < BYTES_PER_LENGTH_OFFSET then
            .error (.decodeErr (.invalidListFixedBytesLen firstOffset))
          else
            let numItems := firstOffset / BYTES_PER_LENGTH_OFFSET
            if n < numItems then .error (.decodeErr .bytesInvalid)
            else if vb.length < numItems * BYTES_PER_LENGTH_OFFSET then
              .error .abort
            else do
              let items := vb.drop (numItems * BYTES_PER_LENGTH_OFFSET)
              let vs ← decode_var_items dec
                (offsets_of numItems (vb.take (numItems * BYTES_PER_LENGTH_OFFSET)))
                (numItems * BYTES_PER_LENGTH_OFFSET + items.length) items
              if n < vs.length then .error (.decodeErr .bytesInvalid)
              else .ok (.list vs, fb, [])
  | .vector t n, fb, vb =>
      let dec := fun chunk => do
        let (f, v) ← from_ssz_bytes_split t chunk
        let (val, _, _) ← ssz_read t f v
        Except.ok val
      if fb.isEmpty && vb.isEmpty then
        if n = 0 then .ok (.vector [], fb, vb)
        else .error (.decodeErr .bytesInvalid)
      else if is_ssz_static t then
        let k := ssz_fixed_len t
        if fb.length < n * k then .error (.decodeErr .bytesInvalid)
        else if k = 0 then .error .abort
        else do
          let vs ← decode_chunks dec k n (fb.take (n * k))
          if vs.length = n then .ok (.vector vs, fb.drop (n * k), vb)
          else .error (.decodeErr .bytesInvalid)
      else
        if vb.length < n * BYTES_PER_LENGTH_OFFSET then .error .abort
        else do
          let items := vb.drop (n * BYTES_PER_LENGTH_OFFSET)
          let vs ← decode_var_items dec
            (offsets_of n (vb.take (n * BYTES_PER_LENGTH_OFFSET)))
            (n * BYTES_PER_LENGTH_OFFSET + items.length) items
          if vs.length = n then .ok (.vector vs, fb, [])
          else .error (.decodeErr .bytesInvalid)
  | .container fs, fb, vb =>
      if all_ssz_static fs then
        if fb.length < ssz_fixed_len_sum fs then
          .error (.decodeErr (.invalidByteLength fb.length (ssz_fixed_len_sum fs)))
        else do
          let (vs, fb2, vb2) ← ssz_read_fields_static fs fb vb
          Except.ok (.container vs, fb2, vb2)
      else do
        let (vs, fb2, vb2) ←
          ssz_read_fields_var fs fs 0 (fb.length + vb.length) fb vb
        Except.ok (.container vs, fb2, vb2)

/-- Field loop of the derived static-container `ssz_read`: every field is
read directly, in order, threading both buffers. -/
def ssz_read_fields_static : List Ty → List Nat → List Nat →
    Except DErr (List Val × List Nat × List Nat)
  | [], fb, vb => .ok ([], fb, vb)
  | g :: gs, fb, vb => do
      let (v, fb2, vb2) ← ssz_read g fb vb
      let (vs, fb3, vb3) ← ssz_read_fields_static gs fb2 vb2
      Except.ok (v :: vs, fb3, vb3)

/-- Field loop of the derived variable-container `ssz_read`
(`src/sszb_derive/src/lib.rs` lines 235-280).  `allF` is the full field
list (the generated end-scan walks every field each time), `cursor` the
running count of consumed fixed bytes, `eob` the
`fixed_bytes.remaining() + variable_bytes.remaining()` captured on entry.
A static field advances the cursor by its fixed length and reads directly.
A variable field advances the cursor by one offset width, reads its own
offset `begin` from the fixed buffer, scans for the next variable field's
offset (`end`, defaulting to `eob`), computes `field_len = end - begin`
(`usize` subtraction: panics when decreasing), fails with
`InvalidByteLength` when `field_len` exceeds the remaining variable bytes,
and otherwise decodes the field from the front of the variable region via
`from_ssz_bytes`, advancing it by `field_len`. -/
def ssz_read_fields_var : List Ty → List Ty → Nat → Nat → List Nat → List Nat →
    Except DErr (List Val × List Nat × List Nat)
  | _, [], _, _, fb, vb => .ok ([], fb, vb)
  | allF, g :: gs, cursor, eob, fb, vb =>
      if is_ssz_static g then do
        let (v, fb2, vb2) ← ssz_read g fb vb
        let (vs, fb3, vb3) ←
          ssz_read_fields_var allF gs (cursor + ssz_fixed_len g) eob fb2 vb2
        Except.ok (v :: vs, fb3, vb3)
      else do
        let (begin_, fb2) ← read_offset_from_buf fb
        let endOpt ← scan_end allF (cursor + BYTES_PER_LENGTH_OFFSET) fb2 0 none
        let endPos := endOpt.getD eob
        if endPos < begin_ then .error .abort
        else
          let fieldLen := endPos - begin_
          if vb.length < fieldLen then
            .error (.decodeErr (.invalidByteLength fieldLen vb.length))
          else do
            let (f, v) ← from_ssz_bytes_split g (vb.take fieldLen)
            let (val, _, _) ← ssz_read g f v
            let (vs, fb3, vb3) ←
              ssz_read_fields_var allF gs (cursor + BYTES_PER_LENGTH_OFFSET) eob
                fb2 (vb.drop fieldLen)
            Except.ok (val :: vs, fb3, vb3)

end

/-- The `from_ssz_bytes` entry point: split per `from_ssz_bytes_split`,
delegate to `ssz_read`, return the value. -/
def from_ssz_bytes (t : Ty) (bytes : List Nat) : Except DErr Val := do
  let (f, v) ← from_ssz_bytes_split t bytes
  let (val, _, _) ← ssz_read t f v
  Except.ok val

/-! Auxiliary lemmas about the byte helpers. -/

theorem leBytes_length (w v : Nat) : (leBytes w v).length = w := by
  induction w generalizing v with
  | zero => rfl
  | succ w ih => simp [leBytes, ih]

theorem fromLEBytes_leBytes (w v : Nat) (h : v < 2 ^ (8 * w)) :
    fromLEBytes (leBytes w v) = v := by
  induction w generalizing v with
  | zero => simp at h; simp [leBytes, fromLEBytes, h]
  | succ w ih =>
      have hlt : v / 256 < 2 ^ (8 * w) := by
        have : (2 : Nat) ^ (8 * (w + 1)) = 2 ^ (8 * w) * 256 := by ring
        omega
      simp [leBytes, fromLEBytes, ih (v / 256) hlt]
      omega

/-! Length accounting for the encoder. -/

/-- A static value's `sszb_bytes_len` is its type's `ssz_fixed_len`. -/
theorem sszb_bytes_len_static : ∀ (t : Ty) (v : Val),
    is_ssz_static t = true → wf t v = true →
    sszb_bytes_len t v = ssz_fixed_len t := by
  intro t v hs hw
  cases t <;> cases v <;>
    simp_all [is_ssz_static, wf, sszb_bytes_len, ssz_fixed_len]

/-- Over static elements, summing `sszb_bytes_len` is `ssz_fixed_len`
times the element count. -/
theorem sszb_bytes_len_sum_static (t : Ty) (hs : is_ssz_static t = true) :
    ∀ es : List Val, wf_elems t es = true →
      sszb_bytes_len_sum t es = ssz_fixed_len t * es.length := by
  intro es
  induction es with
  | nil => intro _; simp [sszb_bytes_len_sum]
  | cons e es ih =>
      intro hw
      simp only [wf_elems, Bool.and_eq_true] at hw
      simp [sszb_bytes_len_sum, sszb_bytes_len_static t e hs hw.1, ih hw.2,
        List.length_cons]
      ring

/-- In an all-static container, the per-field byte-length sum collapses to
the fixed-length sum. -/
theorem sszb_bytes_len_fields_static : ∀ (fs : List Ty) (vs : List Val),
    all_ssz_static fs = true → wf_fields fs vs = true →
    sszb_bytes_len_fields fs vs = ssz_fixed_len_sum fs := by
  intro fs
  induction fs with
  | nil =>
      intro vs hs hw
      cases vs with
      | nil => simp [sszb_bytes_len_fields, ssz_fixed_len_sum]
      | cons v vs => simp [wf_fields] at hw
  | cons g gs ih =>
      intro vs hs hw
      cases vs with
      | nil => simp [wf_fields] at hw
      | cons v vs =>
          simp only [all_ssz_static, Bool.and_eq_true] at hs
          simp only [wf_fields, Bool.and_eq_true] at hw
          simp [sszb_bytes_len_fields, ssz_fixed_len_sum, hs.1,
            ih vs hs.2 hw.2]

/-- The offset table of a variable-element sequence occupies one offset
width per element. -/
theorem ssz_write_offsets_length (t : Ty) :
    ∀ (es : List Val) (off : Nat),
      (ssz_write_offsets t off es).length =
        BYTES_PER_LENGTH_OFFSET * es.length := by
  intro es
  induction es with
  | nil => intro off; simp [ssz_write_offsets]
  | cons e es ih =>
      intro off
      simp [ssz_write_offsets, ih, leBytes_length, List.length_cons]
      ring

mutual

/-- A well-typed value's `ssz_write` produces exactly `sszb_bytes_len`
bytes. -/
theorem ssz_write_length : ∀ (t : Ty) (v : Val), wf t v = true →
    (ssz_write t v).length = sszb_bytes_len t v
  | .uint w, .uint _ x, _ => by
      simp [ssz_write, sszb_bytes_len, leBytes_length]
  | .uint _, .boolean _, h => by simp [wf] at h
  | .uint _, .fixedBytes _, h => by simp [wf] at h
  | .uint _, .list _, h => by simp [wf] at h
  | .uint _, .vector _, h => by simp [wf] at h
  | .uint _, .container _, h => by simp [wf] at h
  | .boolean, .uint _ _, h => by simp [wf] at h
  | .boolean, .boolean b, _ => by simp [ssz_write, sszb_bytes_len]
  | .boolean, .fixedBytes _, h => by simp [wf] at h
  | .boolean, .list _, h => by simp [wf] at h
  | .boolean, .vector _, h => by simp [wf] at h
  | .boolean, .container _, h => by simp [wf] at h
  | .fixedBytes _, .uint _ _, h => by simp [wf] at h
  | .fixedBytes _, .boolean _, h => by simp [wf] at h
  | .fixedBytes n, .fixedBytes bs, h => by
      simp only [wf, Bool.and_eq_true, beq_iff_eq] at h
      simp [ssz_write, sszb_bytes_len, h.1]
  | .fixedBytes _, .list _, h => by simp [wf] at h
  | .fixedBytes _, .vector _, h => by simp [wf] at h
  | .fixedBytes _, .container _, h => by simp [wf] at h
  | .list _ _, .uint _ _, h => by simp [wf] at h
  | .list _ _, .boolean _, h => by simp [wf] at h
  | .list _ _, .fixedBytes _, h => by simp [wf] at h
  | .list t n, .list es, h => by
      have hw : wf_elems t es = true := by
        simp only [wf, Bool.and_eq_true] at h
        exact h.2
      have helems := ssz_write_elems_length t es hw
      by_cases hs : is_ssz_static t
      · simp [ssz_write, sszb_bytes_len, hs, helems,
          sszb_bytes_len_sum_static t hs es hw]
      · simp [ssz_write, sszb_bytes_len, hs, List.length_append,
          ssz_write_offsets_length, helems]
        ring
  | .list _ _, .vector _, h => by simp [wf] at h
  | .list _ _, .container _, h => by simp [wf] at h
  | .vector _ _, .uint _ _, h => by simp [wf] at h
  | .vector _ _, .boolean _, h => by simp [wf] at h
  | .vector _ _, .fixedBytes _, h => by simp [wf] at h
  | .vector _ _, .list _, h => by simp [wf] at h
  | .vector t n, .vector es, h => by
      have hlen : es.length = n := by
        simp only [wf, Bool.and_eq_true, beq_iff_eq] at h
        exact h.1
      have hw : wf_elems t es = true := by
        simp only [wf, Bool.and_eq_true] at h
        exact h.2
      have helems := ssz_write_elems_length t es hw
      by_cases hs : is_ssz_static t
      · simp [ssz_write, sszb_bytes_len, hs, helems,
          sszb_bytes_len_sum_static t hs es hw, hlen]
      · simp [ssz_write, sszb_bytes_len, hs, List.length_append,
          ssz_write_offsets_length, helems, hlen]
        ring
  | .vector _ _, .container _, h => by simp [wf] at h
  | .container _, .uint _ _, h => by simp [wf] at h
  | .container _, .boolean _, h => by simp [wf] at h
  | .container _, .fixedBytes _, h => by simp [wf] at h
  | .container _, .list _, h => by simp [wf] at h
  | .container _, .vector _, h => by simp [wf] at h
  | .container fs, .container vs, h => by
      have hw : wf_fields fs vs = true := by simpa [wf] using h
      have hfields := ssz_write_fields_length fs vs (ssz_fixed_len_sum fs) hw
      by_cases hs : all_ssz_static fs
      · simp [ssz_write, sszb_bytes_len, hs, List.length_append] at hfields ⊢
        rw [hfields, sszb_bytes_len_fields_static fs vs hs hw]
      · simp [ssz_write, sszb_bytes_len, hs, List.length_append] at hfields ⊢
        exact hfields

/-- Concatenated element writes account for the summed byte lengths. -/
theorem ssz_write_elems_length : ∀ (t : Ty) (es : List Val),
    wf_elems t es = true →
    (ssz_write_elems t es).length = sszb_bytes_len_sum t es
  | _, [], _ => by simp [ssz_write_elems, sszb_bytes_len_sum]
  | t, e :: es, h => by
      simp only [wf_elems, Bool.and_eq_true] at h
      simp [ssz_write_elems, sszb_bytes_len_sum, List.length_append,
        ssz_write_length t e h.1, ssz_write_elems_length t es h.2]

/-- The fixed and variable passes of the derived container writer jointly
account for the per-field byte-length sum, for any running offset. -/
theorem ssz_write_fields_length : ∀ (fs : List Ty) (vs : List Val) (off : Nat),
    wf_fields fs vs = true →
    (ssz_write_fields_fixed fs vs off).length +
      (ssz_write_fields_var fs vs).length = sszb_bytes_len_fields fs vs
  | [], [], _, _ => by
      simp [ssz_write_fields_fixed, ssz_write_fields_var, sszb_bytes_len_fields]
  | [], _ :: _, _, h => by simp [wf_fields] at h
  | _ :: _, [], _, h => by simp [wf_fields] at h
  | g :: gs, v :: vs, off, h => by
      simp only [wf_fields, Bool.and_eq_true] at h
      by_cases hs : is_ssz_static g
      · have ih := ssz_write_fields_length gs vs off h.2
        simp [ssz_write_fields_fixed, ssz_write_fields_var,
          sszb_bytes_len_fields, hs, List.length_append,
          ssz_write_length g v h.1, sszb_bytes_len_static g v hs h.1] at ih ⊢
        omega
      · have ih := ssz_write_fields_length gs vs (off + sszb_bytes_len g v) h.2
        simp [ssz_write_fields_fixed, ssz_write_fields_var,
          sszb_bytes_len_fields, hs, List.length_append, leBytes_length,
          ssz_write_length g v h.1] at ih ⊢
        omega

end

/-- A static type rejects an input shorter than its fixed length already in
the `from_ssz_bytes` split. -/
theorem from_ssz_bytes_split_short (t : Ty) (bytes : List Nat)
    (hs : is_ssz_static t = true) (hlt : bytes.length < ssz_fixed_len t) :
    from_ssz_bytes_split t bytes =
      .error (.decodeErr (.invalidByteLength bytes.length (ssz_fixed_len t))) := by
  cases t <;>
    simp_all [from_ssz_bytes_split, is_ssz_static, ssz_fixed_len]

/-! Auxiliary facts about the decoder. -/

theorem except_bind_ok {ε α β : Type} (a : α) (g : α → Except ε β) :
    (Except.ok a >>= g : Except ε β) = g a := rfl

theorem except_bind_error {ε α β : Type} (e : ε) (g : α → Except ε β) :
    (Except.error e >>= g : Except ε β) = Except.error e := rfl

theorem except_bind_ok_inv {ε α β : Type} {x : Except ε α} {g : α → Except ε β}
    {b : β} (h : (x >>= g) = .ok b) : ∃ a, x = .ok a ∧ g a = .ok b := by
  cases x with
  | error e => rw [except_bind_error] at h; exact absurd h (by simp)
  | ok a => exact ⟨a, rfl, h⟩

theorem offsets_of_length : ∀ (c : Nat) (bs : List Nat),
    (offsets_of c bs).length = c := by
  intro c
  induction c with
  | zero => intro bs; rfl
  | succ c ih => intro bs; simp [offsets_of, ih]

/-- The pairwise scan decodes exactly one item per offset. -/
theorem decode_var_items_length (dec : List Nat → Except DErr Val) :
    ∀ (offs : List Nat) (endPos : Nat) (items : List Nat) (vs : List Val),
      decode_var_items dec offs endPos items = .ok vs →
      vs.length = offs.length := by
  intro offs
  induction offs with
  | nil =>
      intro endPos items vs h
      simp only [decode_var_items, Except.ok.injEq] at h
      simp [← h]
  | cons o rest ih =>
      intro endPos items vs h
      simp only [decode_var_items] at h
      split at h
      · exact absurd h (by simp)
      · split at h
        · exact absurd h (by simp)
        · obtain ⟨v, hd, h2⟩ := except_bind_ok_inv h
          obtain ⟨vs2, hr, h3⟩ := except_bind_ok_inv h2
          simp only [Except.ok.injEq] at h3
          subst h3
          simpa using ih endPos _ vs2 hr

/-! Claim theorems. -/

/-- C1: the claim states that decoding the bytes produced by encoding any
in-capacity value yields the value back.  The code violates it: for the
value `[[1, 2, 3]]` of `VariableList<VariableList<u8, 4>, 4>` the encoder
produces `04 00 00 00 01 02 03`, but the decoder sanitizes the first offset
(4) against `var_offsets.slice(BYTES_PER_LENGTH_OFFSET..).len()` — the tail
length minus one offset width, here 3 — so the spec-modelled
`sanitize_offset` rejects the encoder's own output whenever the total
payload of a variable-element list is shorter than one offset width. -/
theorem c1_roundtrip_fails_on_small_payload :
    wf (.list (.list (.uint 1) 4) 4)
        (.list [.list [.uint 1 1, .uint 1 2, .uint 1 3]]) = true ∧
    ssz_write (.list (.list (.uint 1) 4) 4)
        (.list [.list [.uint 1 1, .uint 1 2, .uint 1 3]]) =
      [4, 0, 0, 0, 1, 2, 3] ∧
    from_ssz_bytes (.list (.list (.uint 1) 4) 4) [4, 0, 0, 0, 1, 2, 3] =
      .error (.decodeErr (.offsetOutOfBounds 4)) :=
  ⟨rfl, rfl, rfl⟩

/-- C2: for every well-typed value, `ssz_write` produces exactly
`sszb_bytes_len` bytes. -/
theorem c2_write_length_agrees (t : Ty) (v : Val) (h : wf t v = true) :
    (ssz_write t v).length = sszb_bytes_len t v :=
  ssz_write_length t v h

/-- C2 witness: the container scenario value satisfies the hypothesis and
the conclusion evaluates on it. -/
theorem c2_write_length_agrees_witness :
    wf (.container [.boolean, .list (.uint 1) 4])
        (.container [.boolean true, .list [.uint 1 1, .uint 1 2, .uint 1 3]]) =
      true ∧
    (ssz_write (.container [.boolean, .list (.uint 1) 4])
        (.container [.boolean true,
          .list [.uint 1 1, .uint 1 2, .uint 1 3]])).length =
      sszb_bytes_len (.container [.boolean, .list (.uint 1) 4])
        (.container [.boolean true, .list [.uint 1 1, .uint 1 2, .uint 1 3]]) :=
  ⟨rfl, c2_write_length_agrees _ _ rfl⟩

/-- C3 counterexample: the claim states that truncating any valid encoding
fails decode.  For the byte list `[1, 2, 3]` of `VariableList<u8, 4>`,
removing the final byte of its (valid) encoding decodes successfully to
`[1, 2]` — a shorter list, not an error. -/
theorem c3_truncation_counterexample :
    wf (.list (.uint 1) 4) (.list [.uint 1 1, .uint 1 2, .uint 1 3]) = true ∧
    ssz_write (.list (.uint 1) 4) (.list [.uint 1 1, .uint 1 2, .uint 1 3]) =
      [1, 2, 3] ∧
    from_ssz_bytes (.list (.uint 1) 4) ([1, 2, 3].dropLast) =
      .ok (.list [.uint 1 1, .uint 1 2]) :=
  ⟨rfl, rfl, rfl⟩

/-- C3 amended: for a type of static size, truncating a valid encoding by
any positive byte count always fails decode with `InvalidByteLength`; a
variable-size type may decode a truncated encoding successfully (the
counterexample above). -/
theorem c3_static_truncation_rejected (t : Ty) (v : Val) (k : Nat)
    (hs : is_ssz_static t = true) (hw : wf t v = true) (hk : 0 < k)
    (hkle : k ≤ (ssz_write t v).length) :
    from_ssz_bytes t ((ssz_write t v).take ((ssz_write t v).length - k)) =
      .error (.decodeErr (.invalidByteLength ((ssz_write t v).length - k)
        (ssz_fixed_len t))) := by
  have hlen : (ssz_write t v).length = ssz_fixed_len t := by
    rw [ssz_write_length t v hw, sszb_bytes_len_static t v hs hw]
  have htr : ((ssz_write t v).take ((ssz_write t v).length - k)).length =
      (ssz_write t v).length - k := by
    simp [List.length_take]
  have hsplit := from_ssz_bytes_split_short t
    ((ssz_write t v).take ((ssz_write t v).length - k)) hs
    (by rw [htr]; omega)
  simp only [from_ssz_bytes, hsplit, htr]
  rfl

/-- C3 amended witness: truncating the two-byte encoding of a `u16` by one
byte is rejected with `InvalidByteLength`. -/
theorem c3_static_truncation_rejected_witness :
    from_ssz_bytes (.uint 2) ((ssz_write (.uint 2) (.uint 2 5)).take
        ((ssz_write (.uint 2) (.uint 2 5)).length - 1)) =
      .error (.decodeErr (.invalidByteLength 1 2)) := by
  have h := c3_static_truncation_rejected (.uint 2) (.uint 2 5) 1 rfl rfl
    (by decide) (by decide)
  simpa using h

/-- C4: the claim states that decreasing an offset of a valid
variable-element encoding yields a decode error, never a panic.  The code
violates it: the pairwise scan computes each item length as `end - start`
without re-sanitizing the later offsets, so decreasing the second offset of
the valid encoding `08 00 00 00 0C 00 00 00 01 02 03 04 05` to 4 makes the
`usize` subtraction `4 - 8` panic. -/
theorem c4_decreasing_offset_aborts :
    from_ssz_bytes (.list (.list (.uint 1) 8) 8)
        [8, 0, 0, 0, 12, 0, 0, 0, 1, 2, 3, 4, 5] =
      .ok (.list [.list [.uint 1 1, .uint 1 2, .uint 1 3, .uint 1 4],
        .list [.uint 1 5]]) ∧
    from_ssz_bytes (.list (.list (.uint 1) 8) 8)
        [8, 0, 0, 0, 4, 0, 0, 0, 1, 2, 3, 4, 5] = .error .abort :=
  ⟨rfl, rfl⟩

/-- C5: the claim states `ssz_max_len() ≥ sszb_bytes_len(v)` for every
in-capacity value.  The encode-side `ssz_max_len` of `VariableList` is
`T::ssz_max_len() * N`, which omits the offset-table bytes counted by
`sszb_bytes_len`: the value `[[]]` of `VariableList<VariableList<u8, 1>, 1>`
has `sszb_bytes_len = 4` against `ssz_max_len = 1`. -/
theorem c5_max_len_below_bytes_len :
    wf (.list (.list (.uint 1) 1) 1) (.list [.list []]) = true ∧
    ssz_max_len (.list (.list (.uint 1) 1) 1) = 1 ∧
    sszb_bytes_len (.list (.list (.uint 1) 1) 1) (.list [.list []]) = 4 ∧
    ssz_max_len (.list (.list (.uint 1) 1) 1) <
      sszb_bytes_len (.list (.list (.uint 1) 1) 1) (.list [.list []]) :=
  ⟨rfl, rfl, rfl, by decide⟩

/-- C6: the claim states that every fixed-size leaf validates the remaining
byte count before reading.  Integers and booleans do and return
`InvalidByteLength`, but the byte-blob impls (`Address`, `FixedBytes`,
`Bloom`, the hash types) run `copy_to_slice` first, so a short buffer
panics and their length check is dead code. -/
theorem c6_blob_reads_before_length_check :
    ssz_read (.fixedBytes 20) [] [] = .error .abort ∧
    ssz_read (.uint 8) [] [] = .error (.decodeErr (.invalidByteLength 0 8)) ∧
    ssz_read .boolean [] [] = .error (.decodeErr (.invalidByteLength 0 1)) :=
  ⟨rfl, rfl, rfl⟩

/-- C8: booleans decode 0 to `false` and 1 to `true`, reject every other
leading byte with `BytesInvalid`, encode to the single bytes 0 and 1, and
round-trip. -/
theorem c8_boolean_domain :
    (∀ rest vb, ssz_read .boolean (0 :: rest) vb = .ok (.boolean false, rest, vb)) ∧
    (∀ rest vb, ssz_read .boolean (1 :: rest) vb = .ok (.boolean true, rest, vb)) ∧
    (∀ b rest vb, b ≠ 0 → b ≠ 1 →
      ssz_read .boolean (b :: rest) vb = .error (.decodeErr .bytesInvalid)) ∧
    ssz_write .boolean (.boolean false) = [0] ∧
    ssz_write .boolean (.boolean true) = [1] ∧
    (∀ b : Bool,
      from_ssz_bytes .boolean (ssz_write .boolean (.boolean b)) =
        .ok (.boolean b)) := by
  refine ⟨fun rest vb => rfl, fun rest vb => rfl, ?_, rfl, rfl, ?_⟩
  · intro b rest vb h0 h1
    simp [ssz_read, h0, h1]
  · intro b
    cases b <;> rfl

/-- C8 witness: byte 2 is rejected. -/
theorem c8_boolean_domain_witness :
    ssz_read .boolean [2] [] = .error (.decodeErr .bytesInvalid) :=
  c8_boolean_domain.2.2.1 2 [] [] (by decide) (by decide)

/-- C7: when decoding a bounded list of variable-size elements from a
non-empty tail that passes the first-offset sanitization, the item count is
inferred as `firstOffset / BYTES_PER_LENGTH_OFFSET`: a first offset that is
misaligned or smaller than one offset width is rejected with
`InvalidListFixedBytesLen`, an inferred count above the capacity bound `n`
is rejected, and a successful decode returns exactly
`firstOffset / BYTES_PER_LENGTH_OFFSET` items. -/
theorem c7_inferred_item_count (t : Ty) (n : Nat) (fb vb : List Nat)
    (ht : is_ssz_static t = false) (h4 : BYTES_PER_LENGTH_OFFSET ≤ vb.length)
    (hsan : fromLEBytes (vb.take BYTES_PER_LENGTH_OFFSET) ≤
      vb.length - BYTES_PER_LENGTH_OFFSET) :
    (fromLEBytes (vb.take BYTES_PER_LENGTH_OFFSET) % BYTES_PER_LENGTH_OFFSET ≠ 0 ∨
        fromLEBytes (vb.take BYTES_PER_LENGTH_OFFSET) < BYTES_PER_LENGTH_OFFSET →
      ssz_read (.list t n) fb vb =
        .error (.decodeErr (.invalidListFixedBytesLen
          (fromLEBytes (vb.take BYTES_PER_LENGTH_OFFSET))))) ∧
    (fromLEBytes (vb.take BYTES_PER_LENGTH_OFFSET) % BYTES_PER_LENGTH_OFFSET = 0 →
      n < fromLEBytes (vb.take BYTES_PER_LENGTH_OFFSET) / BYTES_PER_LENGTH_OFFSET →
      ssz_read (.list t n) fb vb = .error (.decodeErr .bytesInvalid)) ∧
    (∀ v fb2 vb2, ssz_read (.list t n) fb vb = .ok (v, fb2, vb2) →
      ∃ es, v = .list es ∧
        es.length = fromLEBytes (vb.take BYTES_PER_LENGTH_OFFSET) /
          BYTES_PER_LENGTH_OFFSET) := by
  have hB : BYTES_PER_LENGTH_OFFSET = 4 := rfl
  have hemp : vb.isEmpty = false := by
    cases vb with
    | nil => rw [hB] at h4; simp at h4
    | cons a l => rfl
  have htk : (vb.take BYTES_PER_LENGTH_OFFSET).length = BYTES_PER_LENGTH_OFFSET := by
    rw [hB] at h4 ⊢
    simp [List.length_take]
    omega
  have hro : read_offset_from_slice (vb.take BYTES_PER_LENGTH_OFFSET) =
      .ok (fromLEBytes (vb.take BYTES_PER_LENGTH_OFFSET)) := by
    simp [read_offset_from_slice, htk, List.take_take]
  have hsanr : sanitize_offset (fromLEBytes (vb.take BYTES_PER_LENGTH_OFFSET)) none
      (vb.length - BYTES_PER_LENGTH_OFFSET)
      (some (fromLEBytes (vb.take BYTES_PER_LENGTH_OFFSET))) =
      .ok (fromLEBytes (vb.take BYTES_PER_LENGTH_OFFSET)) := by
    rw [sanitize_offset, if_neg (Nat.not_lt.mpr hsan)]
  refine ⟨?_, ?_, ?_⟩
  · intro hcond
    simp only [ssz_read, hemp, Bool.false_eq_true, if_false, ht,
      if_neg (Nat.not_lt.mpr h4), hro, hsanr, except_bind_ok]
    rw [if_pos hcond]
  · intro hmod hcap
    have hge : BYTES_PER_LENGTH_OFFSET ≤ fromLEBytes (vb.take BYTES_PER_LENGTH_OFFSET) := by
      rw [hB] at hmod hcap ⊢; omega
    simp only [ssz_read, hemp, Bool.false_eq_true, if_false, ht,
      if_neg (Nat.not_lt.mpr h4), hro, hsanr, except_bind_ok]
    rw [if_neg (by push_neg; exact ⟨hmod, Nat.not_lt.mp (by omega)⟩), if_pos hcap]
  · intro v fb2 vb2 hok
    simp only [ssz_read, hemp, Bool.false_eq_true, if_false, ht,
      if_neg (Nat.not_lt.mpr h4), hro, hsanr, except_bind_ok] at hok
    by_cases hc1 : fromLEBytes (vb.take BYTES_PER_LENGTH_OFFSET) %
        BYTES_PER_LENGTH_OFFSET ≠ 0 ∨
        fromLEBytes (vb.take BYTES_PER_LENGTH_OFFSET) < BYTES_PER_LENGTH_OFFSET
    · rw [if_pos hc1] at hok
      exact absurd hok (by simp)
    · rw [if_neg hc1] at hok
      push_neg at hc1
      by_cases hc2 : n < fromLEBytes (vb.take BYTES_PER_LENGTH_OFFSET) /
          BYTES_PER_LENGTH_OFFSET
      · rw [if_pos hc2] at hok
        exact absurd hok (by simp)
      · rw [if_neg hc2] at hok
        have hmul : (fromLEBytes (vb.take BYTES_PER_LENGTH_OFFSET) /
            BYTES_PER_LENGTH_OFFSET) * BYTES_PER_LENGTH_OFFSET =
            fromLEBytes (vb.take BYTES_PER_LENGTH_OFFSET) := by
          rw [hB] at hc1 ⊢
          omega
        rw [if_neg (by rw [hmul]; rw [hB] at hsan ⊢; omega :
          ¬ vb.length < (fromLEBytes (vb.take BYTES_PER_LENGTH_OFFSET) /
            BYTES_PER_LENGTH_OFFSET) * BYTES_PER_LENGTH_OFFSET)] at hok
        obtain ⟨vs, hdec, h2⟩ := except_bind_ok_inv hok
        split at h2
        · exact absurd h2 (by simp)
        · simp only [Except.ok.injEq, Prod.mk.injEq] at h2
          refine ⟨vs, h2.1.symm, ?_⟩
          rw [decode_var_items_length _ _ _ _ _ hdec, offsets_of_length]

/-- C7 witness: a misaligned first offset (6), an offset table implying two
items in a list bounded at one, and a successful decode of one item from a
first offset of 4. -/
theorem c7_inferred_item_count_witness :
    (ssz_read (.list (.list (.uint 1) 1) 2) [] [6, 0, 0, 0, 0, 0, 0, 0, 0, 0] =
      .error (.decodeErr (.invalidListFixedBytesLen 6))) ∧
    (ssz_read (.list (.list (.uint 1) 1) 1) [] [8, 0, 0, 0, 8, 0, 0, 0, 1, 0, 0, 0] =
      .error (.decodeErr .bytesInvalid)) ∧
    (∃ es, (Val.list [Val.list [.uint 1 1, .uint 1 2, .uint 1 3, .uint 1 4]]) =
      Val.list es ∧ es.length = 1) := by
  refine ⟨?_, ?_, ?_⟩
  · exact (c7_inferred_item_count (.list (.uint 1) 1) 2 []
      [6, 0, 0, 0, 0, 0, 0, 0, 0, 0] rfl (by decide) (by decide)).1
      (by decide)
  · exact (c7_inferred_item_count (.list (.uint 1) 1) 1 []
      [8, 0, 0, 0, 8, 0, 0, 0, 1, 0, 0, 0] rfl (by decide) (by decide)).2.1
      (by decide) (by decide)
  · have h := (c7_inferred_item_count (.list (.uint 1) 8) 8 []
      [4, 0, 0, 0, 1, 2, 3, 4] rfl (by decide) (by decide)).2.2
      (.list [.list [.uint 1 1, .uint 1 2, .uint 1 3, .uint 1 4]]) [] []
      (by rfl)
    exact h

/-- C9: the container `(flag: bool, data: List<u8, 4>)` holding
`(true, [1, 2, 3])` encodes to exactly `01 05 00 00 00 01 02 03` and those
eight bytes decode back to the same value. -/
theorem c9_container_scenario :
    ssz_write (.container [.boolean, .list (.uint 1) 4])
        (.container [.boolean true, .list [.uint 1 1, .uint 1 2, .uint 1 3]]) =
      [1, 5, 0, 0, 0, 1, 2, 3] ∧
    from_ssz_bytes (.container [.boolean, .list (.uint 1) 4])
        [1, 5, 0, 0, 0, 1, 2, 3] =
      .ok (.container [.boolean true, .list [.uint 1 1, .uint 1 2, .uint 1 3]]) :=
  ⟨rfl, rfl⟩

/-- C10: in the derived variable-container decoder for
`(flag: bool, data: List<u8, 4>)`, the data field's offset `begin` and the
buffer end are used only to compute the field length `end - begin`; the
field's bytes are always the front of the variable region, so the decode
result depends on `begin` only through that length and no check relates
`begin` to the data's actual position. -/
theorem c10_offsets_only_give_length (f o : Nat) (V : List Nat)
    (hf : f = 0 ∨ f = 1) (ho32 : o < 2 ^ 32) (hge : 5 ≤ o)
    (hle : o ≤ 5 + V.length) :
    from_ssz_bytes (.container [.boolean, .list (.uint 1) 4])
        (f :: (leBytes BYTES_PER_LENGTH_OFFSET o ++ V)) =
      (from_ssz_bytes (.list (.uint 1) 4) (V.take (5 + V.length - o))).map
        (fun d => .container [.boolean (f == 1), d]) := by
  have hB : BYTES_PER_LENGTH_OFFSET = 4 := rfl
  have hlen4 : (leBytes BYTES_PER_LENGTH_OFFSET o).length = 4 := by
    rw [hB, leBytes_length]
  have hfle : fromLEBytes (leBytes BYTES_PER_LENGTH_OFFSET o) = o := by
    rw [hB]
    exact fromLEBytes_leBytes 4 o (by norm_num at ho32 ⊢; exact ho32)
  have hsplitC : from_ssz_bytes_split (.container [.boolean, .list (.uint 1) 4])
      (f :: (leBytes BYTES_PER_LENGTH_OFFSET o ++ V)) =
      .ok (f :: leBytes BYTES_PER_LENGTH_OFFSET o, V) := by
    have hsum : ssz_fixed_len_sum [Ty.boolean, Ty.list (Ty.uint 1) 4] = 5 := rfl
    simp only [from_ssz_bytes_split, hsum]
    rw [if_neg (by simp [hlen4])]
    rw [show (5 : Nat) = 4 + 1 from rfl, List.take_succ_cons,
      List.drop_succ_cons, List.take_left' hlen4, List.drop_left' hlen4]
  have hsplitL : ∀ bs : List Nat,
      from_ssz_bytes_split (.list (.uint 1) 4) bs = .ok ([], bs) :=
    fun bs => rfl
  have hlen44 : (leBytes 4 o).length = 4 := leBytes_length 4 o
  have hoff4 : read_offset_from_buf (leBytes 4 o) = .ok (o, []) := by
    simp only [read_offset_from_buf, hlen44]
    rw [if_neg (by decide)]
    rw [hB]
    rw [List.take_of_length_le (le_of_eq hlen44),
      List.drop_eq_nil_of_le (le_of_eq hlen44)]
    rw [hB] at hfle
    rw [hfle]
  have hc1 : ¬ (5 + V.length < o) := by omega
  have hc2 : ¬ (V.length < 5 + V.length - o) := by omega
  have hbool0 : ssz_read Ty.boolean (0 :: leBytes 4 o) V =
      .ok (.boolean false, leBytes 4 o, V) := rfl
  have hbool1 : ssz_read Ty.boolean (1 :: leBytes 4 o) V =
      .ok (.boolean true, leBytes 4 o, V) := rfl
  have hall : ¬ (all_ssz_static [Ty.boolean, Ty.list (Ty.uint 1) 4] = true) := by
    decide
  have hRHS : ∀ (g : Val → Val) (bs : List Nat),
      (from_ssz_bytes (.list (.uint 1) 4) bs).map g =
        (ssz_read (.list (.uint 1) 4) [] bs >>= fun r => Except.ok (g r.1)) := by
    intro g bs
    simp only [from_ssz_bytes, hsplitL, except_bind_ok]
    cases ssz_read (.list (.uint 1) 4) [] bs with
    | error e => rfl
    | ok r => rfl
  rcases hf with hf | hf <;> subst hf
  all_goals
    cases hL : ssz_read (.list (.uint 1) 4) [] (V.take (5 + V.length - o)) with
    | error e =>
        rw [hRHS, hL, except_bind_error]
        conv_lhs =>
          simp only [from_ssz_bytes, hsplitC, except_bind_ok, ssz_read]
          rw [if_neg hall]
          simp only [ssz_read_fields_var]
          simp [is_ssz_static, ssz_fixed_len, BYTES_PER_LENGTH_OFFSET, scan_end,
            read_offset_from_slice, hbool0, hbool1, hoff4, hlen44, hsplitL,
            hc1, hc2, hL, except_bind_ok, except_bind_error, Option.getD]
    | ok r =>
        obtain ⟨val, fbr, vbr⟩ := r
        rw [hRHS, hL, except_bind_ok]
        conv_lhs =>
          simp only [from_ssz_bytes, hsplitC, except_bind_ok, ssz_read]
          rw [if_neg hall]
          simp only [ssz_read_fields_var]
          simp [is_ssz_static, ssz_fixed_len, BYTES_PER_LENGTH_OFFSET, scan_end,
            read_offset_from_slice, hbool0, hbool1, hoff4, hlen44, hsplitL,
            hc1, hc2, hL, except_bind_ok, except_bind_error, Option.getD]
        simp

/-- C10 witness: with `begin = 6` (one past the payload's true position 5)
and three payload bytes, the decoder still succeeds, taking
`end - begin = 2` bytes from the front of the variable region. -/
theorem c10_offsets_only_give_length_witness :
    from_ssz_bytes (.container [.boolean, .list (.uint 1) 4])
        [1, 6, 0, 0, 0, 1, 2, 3] =
      .ok (.container [.boolean true, .list [.uint 1 1, .uint 1 2]]) := by
  have h := c10_offsets_only_give_length 1 6 [1, 2, 3] (Or.inr rfl)
    (by norm_num) (by norm_num) (by simp)
  exact h.trans (by rfl)

end Sszb
